import Mathlib

/-!
Verification of the Fr32 bit-padding codec of `storage-proofs/src/io/fr32.rs`
and (where statable) the sector-builder facade of
`filecoin-proofs/src/api/sector_builder/mod.rs`.

The Rust code works on `&[u8]` streams interpreted through
`BitVec<bitvec::LittleEndian, u8>`: a byte contributes its bits least
significant first.  We model byte streams as `List ℕ` (each entry a `u8`
value) and bit streams as `List Bool` in that same order.
-/

/-- The bits of one byte, least significant first (the `bitvec` LittleEndian
cursor order used throughout `fr32.rs`). Only the low 8 bits of `b` are
read, exactly as a `u8` holds only 8 bits. -/
def byteToBits (b : ℕ) : List Bool :=
  [b.testBit 0, b.testBit 1, b.testBit 2, b.testBit 3,
   b.testBit 4, b.testBit 5, b.testBit 6, b.testBit 7]

/-- Reassemble a byte from a bit list, least significant bit first; short
lists are implicitly zero-padded at the most significant end, exactly like
`BitVec::from_iter` followed by `into_boxed_slice` on fewer than 8 bits. -/
def bitsToByte : List Bool → ℕ
  | [] => 0
  | b :: rest => (cond b 1 0) + 2 * bitsToByte rest

/-- Model of `BitVec::<LittleEndian, u8>::from(bytes)`: the full bit stream of a byte
slice, least significant bit of each byte first. -/
def toBits (bytes : List ℕ) : List Bool :=
  bytes.flatMap byteToBits

/-- Regroup a bit stream into bytes of 8 bits (`chunks(8)` + `from_iter` +
`into_boxed_slice` in `write_unpadded`); a trailing group of fewer than 8
bits still yields one (zero-extended) byte. -/
def fromBits : List Bool → List ℕ
  | [] => []
  | b0 :: b1 :: b2 :: b3 :: b4 :: b5 :: b6 :: b7 :: rest =>
      bitsToByte [b0, b1, b2, b3, b4, b5, b6, b7] :: fromBits rest
  | l => [bitsToByte l]

/-!
### `write_padded` (fr32.rs lines 13–36)

The Rust loop takes the little-endian bit stream of `source`, splits it
into chunks of `FR_UNPADDED_BITS = 254` bits, pads every chunk (including
a short final one) with zero bits up to `FR_PADDED_BITS = 256`, and writes
each padded chunk as 32 bytes.  `padChunksF` is that loop; the fuel
argument only bounds the number of chunk iterations and is always passed
a sufficiently large value (`bits.length`), so it never cuts the run short.
-/
def padChunksF : ℕ → List Bool → List Bool
  | _, [] => []
  | 0, _ => []
  | fuel + 1, bits =>
      (bits.take 254 ++ List.replicate (256 - (bits.take 254).length) false)
        ++ padChunksF fuel (bits.drop 254)

def padBits254 (bits : List Bool) : List Bool :=
  padChunksF bits.length bits

/-- Model of `write_padded(source, target)`: the byte sequence written to the sink.
The Rust function returns the number of bytes written, which is the length
of this list. -/
def write_padded (source : List ℕ) : List ℕ :=
  fromBits (padBits254 (toBits source))

/-!
### Unpadding (the bit-level core of `write_unpadded`, fr32.rs lines 80–95)

`write_unpadded` treats a window of the padded buffer as a little-endian bit
stream, splits it into 256-bit chunks and keeps the first 254 bits of each
chunk (`chunk.take(FR_UNPADDED_BITS)`), concatenating the results.
-/
def unpadChunksF : ℕ → List Bool → List Bool
  | _, [] => []
  | 0, _ => []
  | fuel + 1, bits => bits.take 254 ++ unpadChunksF fuel (bits.drop 256)

def unpadBits (bits : List Bool) : List Bool :=
  unpadChunksF bits.length bits

/-!
### The f32 window arithmetic of `write_unpadded` (fr32.rs lines 52–68)

The Rust code computes `(offset_bits as f32 / FR_UNPADDED_BITS as f32).ceil()
as usize` (and the same for `len_bits`).  We model IEEE-754 binary32
round-to-nearest-even exactly, but entirely over ℕ/ℤ:

* `natRoundF32 n` is `n as f32` (the value is always an integer);
* `f32DivSig a b` is the significand/exponent pair of the correctly rounded
  quotient `a / b` of two exactly-represented positive integers, with
  value `m · 2^(e-23)`;
* `f32CeilPos m e` is `.ceil() as usize` of that value (f32 `ceil` is exact
  and the results here are far below the range where an integer-valued f32
  could overflow `usize`).
-/
/-- Largest `t` with `b·2^t ≤ a` (for `b ≤ a`), found by doubling `b`;
the fuel bounds the number of doublings and 128 is ample for every value
a `usize` computation can produce. -/
def expSearchDown : ℕ → ℕ → ℕ → ℕ
  | 0, _, _ => 0
  | fuel + 1, a, b => if b * 2 ≤ a then expSearchDown fuel a (b * 2) + 1 else 0

/-- Smallest `t ≥ 1` with `b ≤ a·2^t` (for `a < b`). -/
def expSearchUp : ℕ → ℕ → ℕ → ℕ
  | 0, _, _ => 0
  | fuel + 1, a, b => if b ≤ a * 2 then 1 else expSearchUp fuel (a * 2) b + 1

/-- The binary exponent `e` with `2^e ≤ a/b < 2^(e+1)`, for positive `a b`. -/
def expSearch (a b : ℕ) : ℤ :=
  if b ≤ a then (expSearchDown 128 a b : ℤ) else -(expSearchUp 128 a b : ℤ)

/-- Model of `n as f32`: round-to-nearest-even at 24 significand bits.  The result of
rounding a nonnegative integer is again an integer. -/
def natRoundF32 (n : ℕ) : ℕ :=
  if n ≤ 2 ^ 24 then n
  else
    let e := expSearchDown 128 n 1
    let s := e - 23
    let q := n / 2 ^ s
    let r := n % 2 ^ s
    if 2 * r < 2 ^ s then q * 2 ^ s
    else if 2 ^ s < 2 * r then (q + 1) * 2 ^ s
    else if q % 2 = 0 then q * 2 ^ s else (q + 1) * 2 ^ s

/-- Correctly rounded f32 division of exactly-represented positive integers:
returns `(m, e)` such that the IEEE result is `m · 2^(e-23)` with
`|m - (a/b)·2^(23-e)| ≤ 1/2`. -/
def f32DivSig (a b : ℕ) : ℕ × ℤ :=
  let e := expSearch a b
  let N := if 0 ≤ 23 - e then a * 2 ^ (23 - e).toNat else a
  let D := if 0 ≤ 23 - e then b else b * 2 ^ (e - 23).toNat
  let q := N / D
  let r := N % D
  let m := if 2 * r < D then q
           else if D < 2 * r then q + 1
           else if q % 2 = 0 then q else q + 1
  (m, e)

/-- Model of `.ceil() as usize` on the positive f32 value `m · 2^(e-23)`. -/
def f32CeilPos (m : ℕ) (e : ℤ) : ℕ :=
  if 23 ≤ e then m * 2 ^ (e - 23).toNat
  else (m + 2 ^ (23 - e).toNat - 1) / 2 ^ (23 - e).toNat

/-- Model of `(a as f32 / b as f32).ceil() as usize` for integer-valued
f32 operands `a` and `b > 0`. -/
def f32DivCeil (a b : ℕ) : ℕ :=
  if a = 0 then 0 else f32CeilPos (f32DivSig a b).1 (f32DivSig a b).2

/-- fr32.rs lines 54–61: `fr_count_offset`. -/
def frCountOffset (offset : ℕ) : ℕ :=
  let tmp := f32DivCeil (natRoundF32 (offset * 8)) (natRoundF32 254)
  if tmp > 0 then tmp - 1 else tmp

/-- fr32.rs line 62: `fr_count_len`. -/
def frCountLen (len : ℕ) : ℕ :=
  f32DivCeil (natRoundF32 (len * 8)) (natRoundF32 254) + 1

/-- fr32.rs line 64: `start_padded = (fr_count_offset * FR_PADDED_BITS) / 8`. -/
def startPadded (offset : ℕ) : ℕ :=
  frCountOffset offset * 256 / 8

/-- fr32.rs lines 65–68: `end_padded`. -/
def endPadded (srcLen offset len : ℕ) : ℕ :=
  min srcLen (startPadded offset + frCountLen len * 256 / 8)

/-- Result of `write_unpadded`.  The Rust function returns
`io::Result<u64>`; with an in-memory sink the only failure modes are
panics (slice-range panic, usize-subtraction overflow in debug builds, or
the `assert_eq!(written, len)` at fr32.rs line 103), modelled as
`panicked`.  `err` models an `Err(_)` return, which the function body never
produces. -/
inductive WUOutcome
  | success (out : List ℕ)
  | panicked
  | err (msg : String)
deriving DecidableEq

/-- Model of `write_unpadded(source, target, offset, len)` (fr32.rs lines 41–105):
on success the returned list is the byte sequence written to the sink, and
the Rust return value is its length. -/
def write_unpadded (source : List ℕ) (offset len : ℕ) : WUOutcome :=
  let start_padded := startPadded offset
  let end_padded := endPadded source.length offset len
  if end_padded < start_padded then .panicked
  else if offset < start_padded then .panicked
  else
    let window := (source.drop start_padded).take (end_padded - start_padded)
    let unpadded := fromBits (unpadBits (toBits window))
    let out := (unpadded.drop (offset - start_padded)).take len
    if out.length = len then .success out else .panicked

/-!
### `Fr32Writer` (fr32.rs lines 107–315)

State: the Rust fields `prefix`, `prefix_size`, `bits_needed` are modelled
as `pfx`, `pfx_size`, `bits_needed` (the first two renamed, same meaning:
the partially filled carry byte and its bit count).  `u8` values are
naturals `< 256`; `usize` values are naturals.
-/
structure Fr32Writer where
  pfx : ℕ
  pfx_size : ℕ
  bits_needed : ℕ
deriving DecidableEq

/-- Model of `Fr32Writer::new` (lines 178–185). -/
def writerNew : Fr32Writer := ⟨0, 0, 254⟩

/-- Model of `split_byte(byte, pos)` (lines 285–294), written with the source's
mask arithmetic.  `>>> `/`<<< `/`&&&` on ℕ agree with the `u8` operations
for the values that occur (all inputs `< 256`, shift amounts `≤ 8`). -/
def split_byte (byte pos : ℕ) : ℕ × ℕ :=
  if pos = 0 then (0, byte)
  else
    let b := byte >>> pos
    let mask_size := 8 - pos
    let mask := (0xff >>> mask_size) <<< mask_size
    let a := (byte &&& mask) >>> mask_size
    (a, b)

/-- Model of `assemble_bytes(prefix, prefix_size, bytes, suffix)` (lines 297–315).
`wrapping_shl` on `u8` masks the shift amount by 7 (hence `% 8`) and
truncates to 8 bits (hence `% 256`).  The plain `>>` by `8 - prefix_size`
is only reached with `prefix_size ≥ 1`, so it never overflows. -/
def assemble_bytes (pfx0 pfx_size : ℕ) (bytes : List ℕ) (suffix : ℕ) : List ℕ :=
  let init := (List.replicate 32 0).set 0 pfx0
  let fin := bytes.foldl
    (fun acc b =>
      let out := acc.1
      let p := acc.2.1
      let i := acc.2.2
      if pfx_size = 0 then
        (out.set i (out.getD i 0 ||| b), p, i + 1)
      else
        (out.set i (p ||| (b <<< (pfx_size % 8)) % 256), b >>> (8 - pfx_size), i + 1))
    ((init, pfx0, 0) : List ℕ × ℕ × ℕ)
  fin.1.set fin.2.2 (fin.2.1 ||| (suffix <<< (pfx_size % 8)) % 256)

/-- Result record of `process_bytes` (lines 189–253): the returned tuple
`(remainder, remainder_size, bytes_consumed, out_bytes, !incomplete)`
plus the mutated `self.bits_needed` (field `bn`). -/
structure PB where
  remainder : ℕ
  remainder_size : ℕ
  consumed : ℕ
  out : List ℕ
  more : Bool
  bn : ℕ
deriving DecidableEq

/-- Model of `Fr32Writer::process_bytes` (lines 189–253).  The source's outer
`if bytes_to_consume <= bytes.len()` is always true (it is a `min`), so the
branch structure below is: incomplete (too few bytes sent), the dead
`remainder_size == 0` branch (`8 - bits_needed % 8` is never 0), and the
complete chunk.  Note line 230's `bits_needed - bytes.len()` subtracts a
byte count from a bit count, faithfully reproduced. -/
def process_bytes (st : Fr32Writer) (bytes : List ℕ) : PB :=
  let bits_needed := st.bits_needed
  let full_bytes_needed := bits_needed / 8
  let suffix_size := bits_needed % 8
  let remainder_size := 8 - suffix_size
  let bytes_to_consume := min full_bytes_needed bytes.length
  if remainder_size ≠ 0 ∧ bytes_to_consume + 1 > bytes.length then
    let p := split_byte 0 suffix_size
    { remainder := p.2, remainder_size := st.pfx_size, consumed := bytes.length,
      out := assemble_bytes st.pfx st.pfx_size (bytes.take bytes_to_consume) p.1,
      more := false, bn := bits_needed - bytes.length }
  else if remainder_size = 0 then
    let p := split_byte 0 suffix_size
    { remainder := p.2, remainder_size := remainder_size, consumed := bytes_to_consume,
      out := assemble_bytes st.pfx st.pfx_size (bytes.take bytes_to_consume) p.1,
      more := true, bn := bits_needed }
  else
    let final_byte := bytes.getD bytes_to_consume 0
    let p := split_byte final_byte suffix_size
    { remainder := p.2, remainder_size := remainder_size, consumed := bytes_to_consume + 1,
      out := assemble_bytes st.pfx st.pfx_size (bytes.take bytes_to_consume) p.1,
      more := true, bn := 254 - remainder_size }

structure LoopRes where
  st : Fr32Writer
  out : List ℕ
  swk : ℕ
  flen : ℕ
deriving DecidableEq

/-- The `while source_bytes_written < bytes_remaining` loop of
`Write::write` (lines 119–163).  `out` collects everything passed to
`ensure_write` (the sink bytes), `swk` is `source_bytes_written`, and
`flen` is the length of the local `buf` slice at loop exit (used by the
quirky accounting on lines 165–169).  The fuel only bounds the iteration
count; each complete chunk consumes ≥ 1 byte, so `buf.length + 1` is
always enough. -/
def writeLoopF : ℕ → Fr32Writer → List ℕ → LoopRes
  | 0, st, _ => ⟨st, [], 0, 0⟩
  | _ + 1, st, [] => ⟨st, [], 0, 0⟩
  | fuel + 1, st, buf@(_ :: _) =>
      let r := process_bytes st buf
      if r.more then
        let rest := writeLoopF fuel ⟨r.remainder, r.remainder_size, r.bn⟩ (buf.drop r.consumed)
        ⟨rest.st, r.out ++ rest.out, r.consumed + rest.swk, rest.flen⟩
      else
        ⟨⟨if st.pfx_size > 0 then r.out.getD buf.length 0 else st.pfx, st.pfx_size, r.bn⟩,
          r.out.take buf.length, r.consumed, buf.length⟩

/-- Model of `Write::write` for `Fr32Writer` (lines 118–170): returns the new
state, the bytes written to the sink, and the returned count
`if source_bytes_written > buf.len() { bytes_remaining } else { source_bytes_written }`. -/
def fr32_write (st : Fr32Writer) (buf : List ℕ) : Fr32Writer × List ℕ × ℕ :=
  let r := writeLoopF (buf.length + 1) st buf
  (r.st, r.out, if r.swk > r.flen then buf.length else r.swk)

/-- Model of `Fr32Writer::finish` (lines 255–267): returns the new state, the bytes
written to the sink, and the returned count. -/
def fr32_finish (st : Fr32Writer) : Fr32Writer × List ℕ × ℕ :=
  if st.pfx_size > 0 then (⟨0, 0, st.bits_needed⟩, [st.pfx], 1)
  else (st, [], 0)

/-- Predicate `cleanSplit st a` holds when, processing `a` from state `st`, the write
loop consumes all of `a` through complete chunks only — i.e. `a` ends
exactly at a 254-bit chunk boundary of the writer's scan. -/
def cleanSplitF : ℕ → Fr32Writer → List ℕ → Bool
  | 0, _, _ => false
  | _ + 1, _, [] => true
  | fuel + 1, st, buf@(_ :: _) =>
      let r := process_bytes st buf
      r.more && cleanSplitF fuel ⟨r.remainder, r.remainder_size, r.bn⟩ (buf.drop r.consumed)

def cleanSplit (st : Fr32Writer) (a : List ℕ) : Bool :=
  cleanSplitF (a.length + 1) st a

/-- Model of the test harness `write_test(bytes, extra_bytes)` (fr32.rs
lines 335–348): write `a`, then `b`, then `finish()` through one fresh
`Fr32Writer`; returns the sink contents and the sum of the two `write`
return counts. -/
def writeTwice (a b : List ℕ) : List ℕ × ℕ :=
  ((fr32_write writerNew a).2.1 ++ (fr32_write (fr32_write writerNew a).1 b).2.1 ++
      (fr32_finish (fr32_write (fr32_write writerNew a).1 b).1).2.1,
    (fr32_write writerNew a).2.2 + (fr32_write (fr32_write writerNew a).1 b).2.2)

/-- The 66-byte first input of `test_write` (fr32.rs lines 352–356). -/
def testWriteInput : List ℕ :=
  List.range' 1 31 ++ [255] ++ List.range' 1 31 ++ [255, 9, 9]

theorem bitsToByte_lt (l : List Bool) : bitsToByte l < 2 ^ l.length := by
  induction l with
  | nil => simp [bitsToByte]
  | cons b rest ih =>
      simp only [bitsToByte, List.length_cons, pow_succ]
      cases b <;> simp <;> omega

theorem bitsToByte_append_replicate_false (l : List Bool) (n : ℕ) :
    bitsToByte (l ++ List.replicate n false) = bitsToByte l := by
  induction l with
  | nil =>
      simp only [List.nil_append, bitsToByte]
      induction n with
      | zero => rfl
      | succ k ih => simpa [List.replicate_succ, bitsToByte] using ih
  | cons b rest ih => simp [bitsToByte, ih]

set_option maxRecDepth 10000 in
theorem bitsToByte_byteToBits : ∀ b : ℕ, b < 256 → bitsToByte (byteToBits b) = b := by
  decide

theorem byteToBits_bitsToByte :
    ∀ b0 b1 b2 b3 b4 b5 b6 b7 : Bool,
      byteToBits (bitsToByte [b0, b1, b2, b3, b4, b5, b6, b7]) =
        [b0, b1, b2, b3, b4, b5, b6, b7] := by
  decide

theorem length_byteToBits (b : ℕ) : (byteToBits b).length = 8 := rfl

theorem toBits_nil : toBits [] = [] := rfl

theorem toBits_cons (b : ℕ) (rest : List ℕ) :
    toBits (b :: rest) = byteToBits b ++ toBits rest := rfl

theorem toBits_append (l r : List ℕ) : toBits (l ++ r) = toBits l ++ toBits r := by
  simp [toBits]

theorem length_toBits (l : List ℕ) : (toBits l).length = 8 * l.length := by
  induction l with
  | nil => rfl
  | cons b rest ih =>
      simp only [toBits_cons, List.length_append, length_byteToBits, ih,
        List.length_cons]
      ring

theorem toBits_take (l : List ℕ) (k : ℕ) : toBits (l.take k) = (toBits l).take (8 * k) := by
  induction l generalizing k with
  | nil => simp [toBits]
  | cons b rest ih =>
      cases k with
      | zero => simp [toBits]
      | succ k =>
          have h8 : (byteToBits b).length = 8 := rfl
          rw [List.take_succ_cons, toBits_cons, toBits_cons, ih,
            List.take_append_eq_append_take,
            List.take_of_length_le (le_of_eq_of_le h8 (by omega)), h8,
            show 8 * (k + 1) - 8 = 8 * k by omega]

theorem toBits_drop (l : List ℕ) (k : ℕ) : toBits (l.drop k) = (toBits l).drop (8 * k) := by
  induction l generalizing k with
  | nil => simp [toBits]
  | cons b rest ih =>
      cases k with
      | zero => simp
      | succ k =>
          have h8 : (byteToBits b).length = 8 := rfl
          rw [List.drop_succ_cons, toBits_cons, ih,
            List.drop_append_eq_append_drop,
            List.drop_of_length_le (le_of_eq_of_le h8 (by omega)), h8,
            show 8 * (k + 1) - 8 = 8 * k by omega, List.nil_append]

theorem fromBits_nil : fromBits [] = [] := rfl

theorem fromBits_cons8 (b0 b1 b2 b3 b4 b5 b6 b7 : Bool) (rest : List Bool) :
    fromBits (b0 :: b1 :: b2 :: b3 :: b4 :: b5 :: b6 :: b7 :: rest) =
      bitsToByte [b0, b1, b2, b3, b4, b5, b6, b7] :: fromBits rest := rfl

theorem fromBits_take8 (l : List Bool) (h : 8 ≤ l.length) :
    fromBits l = bitsToByte (l.take 8) :: fromBits (l.drop 8) := by
  match l with
  | b0 :: b1 :: b2 :: b3 :: b4 :: b5 :: b6 :: b7 :: rest => rfl
  | [] | [_] | [_, _] | [_, _, _] | [_, _, _, _] | [_, _, _, _, _]
  | [_, _, _, _, _, _] | [_, _, _, _, _, _, _] => simp at h

theorem fromBits_short (l : List Bool) (hne : l ≠ []) (h : l.length < 8) :
    fromBits l = [bitsToByte l] := by
  match l with
  | [] => exact absurd rfl hne
  | [_] | [_, _] | [_, _, _] | [_, _, _, _] | [_, _, _, _, _]
  | [_, _, _, _, _, _] | [_, _, _, _, _, _, _] => rfl
  | _ :: _ :: _ :: _ :: _ :: _ :: _ :: _ :: _ =>
      simp only [List.length_cons] at h
      omega

theorem length_fromBits : ∀ l : List Bool, (fromBits l).length = (l.length + 7) / 8 := by
  suffices H : ∀ (n : ℕ) (l : List Bool),
      l.length ≤ n → (fromBits l).length = (l.length + 7) / 8 from
    fun l => H l.length l le_rfl
  intro n
  induction n with
  | zero =>
      intro l hl
      have : l = [] := List.length_eq_zero.mp (by omega)
      simp [this, fromBits]
  | succ n ih =>
      intro l hl
      by_cases h8 : 8 ≤ l.length
      · rw [fromBits_take8 l h8]
        have := ih (l.drop 8) (by simp; omega)
        simp only [List.length_cons, this, List.length_drop]
        omega
      · rcases l with _ | ⟨b, rest⟩
        · simp [fromBits]
        · rw [fromBits_short _ (by simp) (by omega)]
          simp only [List.length_cons, List.length_nil] at h8 ⊢
          omega

theorem list_eq_cons8 (l : List Bool) (h : 8 ≤ l.length) :
    ∃ b0 b1 b2 b3 b4 b5 b6 b7 rest,
      l = b0 :: b1 :: b2 :: b3 :: b4 :: b5 :: b6 :: b7 :: rest := by
  match l with
  | b0 :: b1 :: b2 :: b3 :: b4 :: b5 :: b6 :: b7 :: rest =>
      exact ⟨b0, b1, b2, b3, b4, b5, b6, b7, rest, rfl⟩
  | [] | [_] | [_, _] | [_, _, _] | [_, _, _, _] | [_, _, _, _, _]
  | [_, _, _, _, _, _] | [_, _, _, _, _, _, _] =>
      (simp only [List.length_cons, List.length_nil] at h; omega)

theorem fromBits_append_of_mod8 :
    ∀ (l r : List Bool), l.length % 8 = 0 → fromBits (l ++ r) = fromBits l ++ fromBits r := by
  suffices H : ∀ (n : ℕ) (l r : List Bool), l.length ≤ n → l.length % 8 = 0 →
      fromBits (l ++ r) = fromBits l ++ fromBits r from
    fun l r h => H l.length l r le_rfl h
  intro n
  induction n with
  | zero =>
      intro l r hl _
      have : l = [] := List.length_eq_zero.mp (by omega)
      simp [this, fromBits_nil]
  | succ n ih =>
      intro l r hl hmod
      rcases Nat.eq_zero_or_pos l.length with h0 | hpos
      · have : l = [] := List.length_eq_zero.mp h0
        simp [this, fromBits_nil]
      · have h8 : 8 ≤ l.length := by omega
        obtain ⟨b0, b1, b2, b3, b4, b5, b6, b7, rest, rfl⟩ := list_eq_cons8 l h8
        simp only [List.cons_append, fromBits_cons8, List.length_cons] at *
        rw [ih rest r (by omega) (by omega)]

theorem fromBits_toBits (l : List ℕ) (h : ∀ b ∈ l, b < 256) : fromBits (toBits l) = l := by
  induction l with
  | nil => rfl
  | cons b rest ih =>
      have step : fromBits (toBits (b :: rest)) =
          bitsToByte (byteToBits b) :: fromBits (toBits rest) := rfl
      rw [step, bitsToByte_byteToBits b (h b (by simp)), ih (fun x hx => h x (by simp [hx]))]

theorem toBits_fromBits :
    ∀ l : List Bool, l.length % 8 = 0 → toBits (fromBits l) = l := by
  suffices H : ∀ (n : ℕ) (l : List Bool), l.length ≤ n → l.length % 8 = 0 →
      toBits (fromBits l) = l from fun l h => H l.length l le_rfl h
  intro n
  induction n with
  | zero =>
      intro l hl _
      have : l = [] := List.length_eq_zero.mp (by omega)
      simp [this, fromBits, toBits]
  | succ n ih =>
      intro l hl hmod
      rcases Nat.eq_zero_or_pos l.length with h0 | hpos
      · have : l = [] := List.length_eq_zero.mp h0
        simp [this, fromBits, toBits]
      · have h8 : 8 ≤ l.length := by omega
        obtain ⟨b0, b1, b2, b3, b4, b5, b6, b7, rest, rfl⟩ := list_eq_cons8 l h8
        simp only [fromBits_cons8, toBits_cons, List.length_cons] at *
        rw [byteToBits_bitsToByte, ih rest (by omega) (by omega)]
        rfl

theorem fromBits_drop8 (l : List Bool) (k : ℕ) :
    fromBits (l.drop (8 * k)) = (fromBits l).drop k := by
  induction k generalizing l with
  | zero => simp
  | succ k ih =>
      by_cases h8 : 8 ≤ l.length
      · rw [fromBits_take8 l h8, List.drop_succ_cons,
          show 8 * (k + 1) = 8 + 8 * k by ring, ← List.drop_drop, ih]
      · have h1 : l.drop (8 * (k + 1)) = [] := List.drop_of_length_le (by omega)
        have h2 : (fromBits l).length ≤ 1 := by rw [length_fromBits]; omega
        rw [h1, List.drop_of_length_le (by omega)]
        rfl

theorem fromBits_take8k (l : List Bool) (k : ℕ) :
    fromBits (l.take (8 * k)) = (fromBits l).take k := by
  induction k generalizing l with
  | zero => simp [fromBits_nil]
  | succ k ih =>
      by_cases h8 : 8 ≤ l.length
      · have hlen : 8 ≤ (l.take (8 * (k + 1))).length := by
          simp only [List.length_take]
          omega
        rw [fromBits_take8 _ hlen, fromBits_take8 l h8, List.take_take,
          show min 8 (8 * (k + 1)) = 8 by omega, List.drop_take,
          show 8 * (k + 1) - 8 = 8 * k by omega, ih, List.take_succ_cons]
      · have e1 : l.take (8 * (k + 1)) = l := List.take_of_length_le (by omega)
        have e2 : (fromBits l).take (k + 1) = fromBits l :=
          List.take_of_length_le (by rw [length_fromBits]; omega)
        rw [e1, e2]

theorem getD_fromBits (l : List Bool) (i : ℕ) :
    (fromBits l).getD i 0 = bitsToByte ((l.drop (8 * i)).take 8) := by
  induction i generalizing l with
  | zero =>
      by_cases h8 : 8 ≤ l.length
      · rw [fromBits_take8 l h8]
        simp
      · rcases Nat.eq_zero_or_pos l.length with h0 | hpos
        · have : l = [] := List.length_eq_zero.mp h0
          simp [this, fromBits, bitsToByte]
        · rw [fromBits_short l (by intro hc; simp [hc] at hpos) (by omega)]
          simp only [Nat.mul_zero, List.drop_zero, List.getD_cons_zero]
          rw [List.take_of_length_le (by omega)]
  | succ i ih =>
      by_cases h8 : 8 ≤ l.length
      · rw [fromBits_take8 l h8, List.getD_cons_succ, ih,
          show 8 * (i + 1) = 8 + 8 * i by ring, ← List.drop_drop]
      · have h1 : l.drop (8 * (i + 1)) = [] := List.drop_of_length_le (by omega)
        have h2 : (fromBits l).length ≤ 1 := by rw [length_fromBits]; omega
        rw [h1, List.getD_eq_getElem?_getD, List.getElem?_eq_none (by omega)]
        rfl

theorem padChunksF_nil (f : ℕ) : padChunksF f [] = [] := by
  cases f <;> rfl

theorem padChunksF_succ (f : ℕ) (bits : List Bool) (h : bits ≠ []) :
    padChunksF (f + 1) bits =
      (bits.take 254 ++ List.replicate (256 - (bits.take 254).length) false)
        ++ padChunksF f (bits.drop 254) := by
  match bits with
  | [] => exact absurd rfl h
  | b :: rest => rfl

theorem padChunksF_congr :
    ∀ (f g : ℕ) (bits : List Bool), bits.length ≤ f → bits.length ≤ g →
      padChunksF f bits = padChunksF g bits := by
  intro f
  induction f with
  | zero =>
      intro g bits hf _
      have : bits = [] := List.length_eq_zero.mp (by omega)
      simp [this, padChunksF_nil]
  | succ f ih =>
      intro g bits hf hg
      rcases Nat.eq_zero_or_pos bits.length with h0 | hpos
      · have : bits = [] := List.length_eq_zero.mp h0
        simp [this, padChunksF_nil]
      · have hne : bits ≠ [] := by intro hc; simp [hc] at hpos
        rcases g with _ | g
        · omega
        · rw [padChunksF_succ f bits hne, padChunksF_succ g bits hne,
            ih g (bits.drop 254) (by simp; omega) (by simp; omega)]

theorem length_padChunksF :
    ∀ (f : ℕ) (bits : List Bool), bits.length ≤ f →
      (padChunksF f bits).length = 256 * ((bits.length + 253) / 254) := by
  intro f
  induction f with
  | zero =>
      intro bits hf
      have : bits = [] := List.length_eq_zero.mp (by omega)
      simp [this, padChunksF_nil]
  | succ f ih =>
      intro bits hf
      rcases Nat.eq_zero_or_pos bits.length with h0 | hpos
      · have : bits = [] := List.length_eq_zero.mp h0
        simp [this, padChunksF_nil]
      · have hne : bits ≠ [] := by intro hc; simp [hc] at hpos
        rw [padChunksF_succ f bits hne]
        have hrec := ih (bits.drop 254) (by simp; omega)
        simp only [List.length_append, List.length_take, List.length_replicate,
          List.length_drop] at hrec ⊢
        omega

theorem length_padBits254 (bits : List Bool) :
    (padBits254 bits).length = 256 * ((bits.length + 253) / 254) :=
  length_padChunksF bits.length bits le_rfl

theorem length_write_padded (source : List ℕ) :
    (write_padded source).length = 32 * ((8 * source.length + 253) / 254) := by
  rw [write_padded, length_fromBits, length_padBits254, length_toBits]
  omega

theorem unpadChunksF_nil (f : ℕ) : unpadChunksF f [] = [] := by
  cases f <;> rfl

theorem unpadChunksF_succ (f : ℕ) (bits : List Bool) (h : bits ≠ []) :
    unpadChunksF (f + 1) bits = bits.take 254 ++ unpadChunksF f (bits.drop 256) := by
  match bits with
  | [] => exact absurd rfl h
  | b :: rest => rfl

theorem unpadChunksF_congr :
    ∀ (f g : ℕ) (bits : List Bool), bits.length ≤ f → bits.length ≤ g →
      unpadChunksF f bits = unpadChunksF g bits := by
  intro f
  induction f with
  | zero =>
      intro g bits hf _
      have : bits = [] := List.length_eq_zero.mp (by omega)
      simp [this, unpadChunksF_nil]
  | succ f ih =>
      intro g bits hf hg
      rcases Nat.eq_zero_or_pos bits.length with h0 | hpos
      · have : bits = [] := List.length_eq_zero.mp h0
        simp [this, unpadChunksF_nil]
      · have hne : bits ≠ [] := by intro hc; simp [hc] at hpos
        rcases g with _ | g
        · omega
        · rw [unpadChunksF_succ f bits hne, unpadChunksF_succ g bits hne,
            ih g (bits.drop 256) (by simp; omega) (by simp; omega)]

theorem unpadBits_nil : unpadBits [] = [] := rfl

/-- Peeling one full 256-bit block off the front of the stream being
unpadded. -/
theorem unpadBits_block (B X : List Bool) (hB : B.length = 256) :
    unpadBits (B ++ X) = B.take 254 ++ unpadBits X := by
  have hne : B ++ X ≠ [] := by
    intro hc
    have := congrArg List.length hc
    simp [hB] at this
  have hlen : (B ++ X).length = 256 + X.length := by simp [hB]
  rw [unpadBits, hlen, show (256 : ℕ) + X.length = 255 + X.length + 1 by omega,
    unpadChunksF_succ (255 + X.length) (B ++ X) hne]
  have h1 : (B ++ X).take 254 = B.take 254 := by
    rw [List.take_append_eq_append_take, hB]
    simp
  have h2 : (B ++ X).drop 256 = X := by
    rw [List.drop_append_eq_append_drop, List.drop_of_length_le (le_of_eq hB), hB]
    simp
  rw [h1, h2, unpadChunksF_congr (255 + X.length) X.length X (by omega) le_rfl]
  rfl

/-- Unpadding undoes padding, up to right zero-padding of the last
254-bit group. -/
theorem unpad_padChunks :
    ∀ (f : ℕ) (bits : List Bool), bits.length ≤ f →
      unpadBits (padChunksF f bits) =
        bits ++ List.replicate (254 * ((bits.length + 253) / 254) - bits.length) false := by
  intro f
  induction f with
  | zero =>
      intro bits hf
      have : bits = [] := List.length_eq_zero.mp (by omega)
      simp [this, padChunksF_nil, unpadBits_nil]
  | succ f ih =>
      intro bits hf
      rcases Nat.eq_zero_or_pos bits.length with h0 | hpos
      · have : bits = [] := List.length_eq_zero.mp h0
        simp [this, padChunksF_nil, unpadBits_nil]
      · have hne : bits ≠ [] := by intro hc; simp [hc] at hpos
        rw [padChunksF_succ f bits hne]
        have hBlen : (bits.take 254 ++
            List.replicate (256 - (bits.take 254).length) false).length = 256 := by
          simp only [List.length_append, List.length_take, List.length_replicate]
          omega
        rw [unpadBits_block _ _ hBlen, ih (bits.drop 254) (by simp; omega)]
        rcases le_or_lt bits.length 254 with hle | hgt
        · have hdrop : bits.drop 254 = [] := List.drop_of_length_le hle
          have htake : bits.take 254 = bits := List.take_of_length_le hle
          have e0 : bits.take 254 ++ List.replicate (256 - (bits.take 254).length) false
              = bits ++ List.replicate (256 - bits.length) false := by rw [htake]
          have e1 : (bits ++ List.replicate (256 - bits.length) false).take 254
              = bits ++ List.replicate (254 - bits.length) false := by
            rw [List.take_append_eq_append_take, List.take_of_length_le (by omega),
              List.take_replicate, show min (254 - bits.length) (256 - bits.length)
                = 254 - bits.length by omega]
          have e2 : 254 * ((bits.length + 253) / 254) - bits.length = 254 - bits.length := by
            omega
          rw [hdrop, e0, e1]
          simp [e2]
        · have htake254 : (bits.take 254).length = 254 := by simp; omega
          have hB254 : (bits.take 254 ++
              List.replicate (256 - (bits.take 254).length) false).take 254
              = bits.take 254 := by
            rw [List.take_append_eq_append_take, htake254]
            simp [List.take_take]
          rw [hB254, ← List.append_assoc, List.take_append_drop]
          congr 2
          simp only [List.length_drop]
          omega

theorem unpad_padBits254 (bits : List Bool) :
    unpadBits (padBits254 bits) =
      bits ++ List.replicate (254 * ((bits.length + 253) / 254) - bits.length) false :=
  unpad_padChunks bits.length bits le_rfl

/-- Truncating the padded stream at a 256-bit block boundary truncates the
unpadded stream at the matching 254-bit boundary. -/
theorem unpadBits_take_blocks :
    ∀ (X : List Bool), X.length % 256 = 0 → ∀ w : ℕ,
      unpadBits (X.take (256 * w)) = (unpadBits X).take (254 * w) := by
  suffices H : ∀ (n : ℕ) (X : List Bool), X.length ≤ n → X.length % 256 = 0 → ∀ w : ℕ,
      unpadBits (X.take (256 * w)) = (unpadBits X).take (254 * w) from
    fun X h w => H X.length X le_rfl h w
  intro n
  induction n with
  | zero =>
      intro X hX _ w
      have : X = [] := List.length_eq_zero.mp (by omega)
      simp [this, unpadBits_nil]
  | succ n ih =>
      intro X hX hmod w
      rcases Nat.eq_zero_or_pos X.length with h0 | hpos
      · have : X = [] := List.length_eq_zero.mp h0
        simp [this, unpadBits_nil]
      · have h256 : 256 ≤ X.length := by omega
        have hsplit : X = X.take 256 ++ X.drop 256 := (List.take_append_drop 256 X).symm
        have hBlen : (X.take 256).length = 256 := by simp; omega
        rcases w with _ | w
        · simp [unpadBits_nil]
        · have e1 : (X.take 256).take (256 * (w + 1)) = X.take 256 :=
            List.take_of_length_le (by rw [hBlen]; omega)
          have e2 : ((X.take 256).take 254).take (254 * (w + 1)) = (X.take 256).take 254 :=
            List.take_of_length_le (by simp only [List.length_take, hBlen]; omega)
          rw [hsplit, List.take_append_eq_append_take, hBlen, e1,
            show 256 * (w + 1) - 256 = 256 * w by omega,
            unpadBits_block _ _ hBlen, unpadBits_block _ _ hBlen,
            ih (X.drop 256) (by simp; omega) (by simp; omega) w,
            List.take_append_eq_append_take, e2]
          congr 2
          simp only [List.length_take, hBlen]
          omega

/-- Byte 31 of one padded block is the last 6 data bits followed by the two
zero pad bits, hence `< 64`. -/
theorem block_byte31_lt (bits : List Bool) :
    bitsToByte (((bits.take 254 ++
      List.replicate (256 - (bits.take 254).length) false).drop 248).take 8) < 64 := by
  have hc : (bits.take 254).length ≤ 254 := by simp
  rw [List.drop_append_eq_append_drop, List.drop_replicate]
  have hlen : ((bits.take 254).drop 248 ++
      List.replicate ((256 - (bits.take 254).length) - (248 - (bits.take 254).length))
        false).length = 8 := by
    simp only [List.length_append, List.length_drop, List.length_replicate]
    omega
  rw [List.take_of_length_le (le_of_eq hlen), bitsToByte_append_replicate_false]
  have h1 := bitsToByte_lt ((bits.take 254).drop 248)
  have h2 : (2 : ℕ) ^ ((bits.take 254).drop 248).length ≤ 2 ^ 6 := by
    apply Nat.pow_le_pow_right (by norm_num)
    simp only [List.length_drop]
    omega
  calc bitsToByte ((bits.take 254).drop 248) < 2 ^ ((bits.take 254).drop 248).length := h1
    _ ≤ 2 ^ 6 := h2

theorem alignment_padChunks :
    ∀ (f : ℕ) (bits : List Bool) (k : ℕ), bits.length ≤ f →
      (fromBits (padChunksF f bits)).getD (32 * k + 31) 0 < 64 := by
  intro f
  induction f with
  | zero =>
      intro bits k hf
      have : bits = [] := List.length_eq_zero.mp (by omega)
      simp [this, padChunksF_nil, fromBits_nil]
  | succ f ih =>
      intro bits k hf
      rcases Nat.eq_zero_or_pos bits.length with h0 | hpos
      · have : bits = [] := List.length_eq_zero.mp h0
        simp [this, padChunksF_nil, fromBits_nil]
      · have hne : bits ≠ [] := by intro hc; simp [hc] at hpos
        rw [padChunksF_succ f bits hne]
        have hBlen : (bits.take 254 ++
            List.replicate (256 - (bits.take 254).length) false).length = 256 := by
          simp only [List.length_append, List.length_take, List.length_replicate]
          omega
        rw [fromBits_append_of_mod8 _ _ (by rw [hBlen])]
        have hfBlen : (fromBits (bits.take 254 ++
            List.replicate (256 - (bits.take 254).length) false)).length = 32 := by
          rw [length_fromBits, hBlen]
        cases k with
        | zero =>
            rw [List.getD_append _ _ _ _ (by rw [hfBlen]; omega), getD_fromBits]
            exact block_byte31_lt bits
        | succ k =>
            rw [List.getD_append_right _ _ _ _ (by rw [hfBlen]; omega), hfBlen,
              show 32 * (k + 1) + 31 - 32 = 32 * k + 31 by omega]
            exact ih (bits.drop 254) k (by simp; omega)

theorem expSearchDown_spec :
    ∀ (fuel a b : ℕ), 1 ≤ b → b ≤ a → a < b * 2 ^ fuel →
      b * 2 ^ expSearchDown fuel a b ≤ a ∧
        a < b * 2 ^ (expSearchDown fuel a b + 1) := by
  intro fuel
  induction fuel with
  | zero =>
      intro a b hb hba hlt
      simp only [pow_zero, Nat.mul_one] at hlt
      omega
  | succ fuel ih =>
      intro a b hb hba hlt
      simp only [expSearchDown]
      by_cases h2 : b * 2 ≤ a
      · rw [if_pos h2]
        have hlt' : a < b * 2 * 2 ^ fuel := by
          have e : b * 2 * 2 ^ fuel = b * 2 ^ (fuel + 1) := by ring
          omega
      
        obtain ⟨hlo, hhi⟩ := ih a (b * 2) (by omega) h2 hlt'
        constructor
        · have e : b * 2 ^ (expSearchDown fuel a (b * 2) + 1)
              = b * 2 * 2 ^ expSearchDown fuel a (b * 2) := by ring
          omega
        · have e : b * 2 ^ (expSearchDown fuel a (b * 2) + 1 + 1)
              = b * 2 * 2 ^ (expSearchDown fuel a (b * 2) + 1) := by ring
          omega
      · rw [if_neg h2]
        simp only [pow_zero, Nat.mul_one, pow_one]
        omega

theorem natRoundF32_of_le (n : ℕ) (h : n ≤ 2 ^ 24) : natRoundF32 n = n := by
  rw [natRoundF32, if_pos h]

set_option maxRecDepth 1000000 in
/-- On inputs up to 2^24, the f32 ceiling-of-quotient against 254 agrees
with the exact integer ceiling: the half-ulp of the quotient is below
1/254, so rounding can never cross an integer boundary.  Beyond 2^24 this
fails (see the C7 counterexample). -/
theorem f32DivCeil_exact : ∀ a : ℕ, a ≤ 2 ^ 24 → f32DivCeil a 254 = (a + 253) / 254 := by
  have hsmall : ∀ a : ℕ, a < 254 → f32DivCeil a 254 = (a + 253) / 254 := by
    decide
  intro a ha
  by_cases hbig : a < 254
  · exact hsmall a hbig
  push_neg at hbig
  have ha0 : a ≠ 0 := by omega
  -- the exponent of a/254
  set d := expSearchDown 128 a 254 with hd
  obtain ⟨hlo, hhi⟩ := expSearchDown_spec 128 a 254 (by norm_num) hbig
    (lt_of_le_of_lt ha (by norm_num))
  rw [← hd] at hlo hhi
  have hd16 : d ≤ 16 := by
    by_contra hgt
    push_neg at hgt
    have h17 : (2 : ℕ) ^ 17 ≤ 2 ^ d := Nat.pow_le_pow_right (by norm_num) (by omega)
    have h2 : 254 * 2 ^ 17 ≤ 254 * 2 ^ d := Nat.mul_le_mul_left 254 h17
    have h3 : (254 * 2 ^ 17 : ℕ) = 33292288 := by norm_num
    omega
  have hesearch : expSearch a 254 = (d : ℤ) := by
    rw [expSearch, if_pos hbig, hd]
  have htoNat : ((23 : ℤ) - (d : ℤ)).toNat = 23 - d := by omega
  have hnonneg : (0 : ℤ) ≤ 23 - (d : ℤ) := by omega
  have hnotle : ¬ (23 : ℤ) ≤ (d : ℤ) := by omega
  -- abbreviations for the scaled dividend
  set t := 23 - d with ht
  set P := 2 ^ t with hP
  have hP128 : 128 ≤ P := by
    have : (2 : ℕ) ^ 7 ≤ 2 ^ t := Nat.pow_le_pow_right (by norm_num) (by omega)
    simpa [hP] using this
  set N := a * P with hN
  set q := N / 254 with hq
  set r := N % 254 with hr
  have hNqr : 254 * q + r = N ∧ r < 254 := by
    constructor
    · rw [hq, hr]; exact Nat.div_add_mod N 254
    · rw [hr]; exact Nat.mod_lt _ (by norm_num)
  -- the rounded significand
  set m := if 2 * r < 254 then q else if 254 < 2 * r then q + 1
           else if q % 2 = 0 then q else q + 1 with hm
  have herr : 254 * m ≤ N + 127 ∧ N ≤ 254 * m + 127 := by
    rw [hm]
    split
    · omega
    · split
      · omega
      · split
        · omega
        · omega
  have hsig : f32DivSig a 254 = (m, (d : ℤ)) := by
    rw [f32DivSig]
    simp only [hesearch, if_pos hnonneg, htoNat]
  have hceil : f32DivCeil a 254 = (m + P - 1) / P := by
    rw [f32DivCeil, if_neg ha0, hsig, f32CeilPos]
    simp only [if_neg hnotle, htoNat, ← ht, ← hP]
  rw [hceil]
  -- compare with the exact integer ceiling
  set k := a / 254 with hk
  set r254 := a % 254 with hr254
  have hak : 254 * k + r254 = a ∧ r254 < 254 := by
    constructor
    · rw [hk, hr254]; exact Nat.div_add_mod a 254
    · rw [hr254]; exact Nat.mod_lt _ (by norm_num)
  rcases Nat.eq_zero_or_pos r254 with hz | hpos
  · -- a is a multiple of 254: everything is exact
    have haP : N = 254 * (k * P) := by
      rw [hN, ← (hak.1), hz]
      ring
    have hqv : q = k * P := by
      rw [hq, haP, Nat.mul_div_cancel_left _ (by norm_num : 0 < 254)]
    have hrv : r = 0 := by
      rw [hr, haP, Nat.mul_mod_right]
    have hmv : m = k * P := by
      rw [hm, hrv, hqv]
      norm_num
    have hres : (k * P + P - 1) / P = k := by
      apply Nat.div_eq_of_lt_le
      · omega
      · have : (k + 1) * P = k * P + P := by ring
        omega
    rw [hmv, hres]
    omega
  · -- a is not a multiple of 254: the ceiling goes up by one, and the
    -- rounding error (≤ 127/254 of an output ulp) cannot cancel the
    -- fractional part (≥ P ≥ 128 in the scaled units)
    set KP := k * P with hKP
    set RP := r254 * P with hRP
    have hNsplit : N = 254 * KP + RP := by
      rw [hN, ← (hak.1), hKP, hRP]
      ring
    have hRPlo : P ≤ RP := by
      rw [hRP]
      calc P = 1 * P := by ring
        _ ≤ r254 * P := Nat.mul_le_mul_right P hpos
    have hRPhi : RP ≤ 253 * P := by
      rw [hRP]
      exact Nat.mul_le_mul_right P (by omega)
    have hmlo : KP + 1 ≤ m := by omega
    have hmhi : m ≤ KP + P := by omega
    have hres : (m + P - 1) / P = k + 1 := by
      apply Nat.div_eq_of_lt_le
      · have : (k + 1) * P = KP + P := by rw [hKP]; ring
        omega
      · have : (k + 1 + 1) * P = KP + P + P := by rw [hKP]; ring
        omega
    rw [hres]
    omega

theorem frCountOffset_exact (offset : ℕ) (h : offset ≤ 2 ^ 21) :
    frCountOffset offset = (offset * 8 + 253) / 254 - 1 := by
  have h8 : offset * 8 ≤ 2 ^ 24 := by omega
  rw [frCountOffset, natRoundF32_of_le _ h8, natRoundF32_of_le 254 (by norm_num),
    f32DivCeil_exact _ h8]
  split <;> omega

theorem frCountLen_exact (len : ℕ) (h : len ≤ 2 ^ 21) :
    frCountLen len = (len * 8 + 253) / 254 + 1 := by
  have h8 : len * 8 ≤ 2 ^ 24 := by omega
  rw [frCountLen, natRoundF32_of_le _ h8, natRoundF32_of_le 254 (by norm_num),
    f32DivCeil_exact _ h8]

theorem frCountOffset_of_le31 (offset : ℕ) (h : offset ≤ 31) : frCountOffset offset = 0 := by
  rw [frCountOffset_exact offset (by omega)]
  omega

theorem startPadded_of_le31 (offset : ℕ) (h : offset ≤ 31) : startPadded offset = 0 := by
  rw [startPadded, frCountOffset_of_le31 offset h]

theorem roundtrip_smalloff (bytes : List ℕ) (off len : ℕ)
    (hb : ∀ b ∈ bytes, b < 256) (hoff : off ≤ 31) (hlen : len ≤ 2 ^ 21)
    (hrange : off + len ≤ bytes.length) :
    write_unpadded (write_padded bytes) off len =
      WUOutcome.success ((bytes.drop off).take len) := by
  have hsp : startPadded off = 0 := startPadded_of_le31 off hoff
  set L := (len * 8 + 253) / 254 with hL
  set c := (8 * bytes.length + 253) / 254 with hc
  have hplen : (write_padded bytes).length = 32 * c := by
    rw [length_write_padded, hc]
  have hep : endPadded (write_padded bytes).length off len = 32 * min c (L + 1) := by
    rw [endPadded, hsp, frCountLen_exact len hlen, hplen, ← hL]
    omega
  set w := min c (L + 1) with hw
  have hmod8 : (padBits254 (toBits bytes)).length % 8 = 0 := by
    rw [length_padBits254]
    omega
  have hmod256 : (padBits254 (toBits bytes)).length % 256 = 0 := by
    rw [length_padBits254]
    omega
  have h1 : toBits ((write_padded bytes).take (32 * w)) =
      (padBits254 (toBits bytes)).take (256 * w) := by
    rw [write_padded, toBits_take, toBits_fromBits _ hmod8,
      show 8 * (32 * w) = 256 * w by ring]
  have h3 : unpadBits (padBits254 (toBits bytes)) =
      toBits bytes ++ List.replicate (254 * c - 8 * bytes.length) false := by
    rw [unpad_padBits254, length_toBits, hc]
  have hkey : 8 * off + 8 * len ≤ 254 * w := by
    have hcb : 8 * bytes.length ≤ 254 * c := by rw [hc]; omega
    have hLb : 8 * len ≤ 254 * L := by rw [hL]; omega
    rw [hw]
    omega
  have hout : ((fromBits (unpadBits (toBits ((write_padded bytes).take (32 * w))))).drop
      off).take len = (bytes.drop off).take len := by
    rw [h1, unpadBits_take_blocks _ hmod256 w, h3, ← fromBits_drop8, ← fromBits_take8k,
      List.drop_take, List.take_take,
      show min (8 * len) (254 * w - 8 * off) = 8 * len by omega,
      List.drop_append_of_le_length (by rw [length_toBits]; omega),
      List.take_append_of_le_length (by rw [List.length_drop, length_toBits]; omega),
      ← toBits_drop, ← toBits_take]
    exact fromBits_toBits _ (fun b hmem =>
      hb b (List.mem_of_mem_drop (List.mem_of_mem_take hmem)))
  have houtlen : ((bytes.drop off).take len).length = len := by
    simp only [List.length_take, List.length_drop]
    omega
  rw [write_unpadded]
  simp only [hsp, hep, Nat.not_lt_zero, if_false, Nat.sub_zero, List.drop_zero, hout,
    houtlen, if_true]

/-- C4: for every input `b`, `write_padded` writes exactly
`⌈(|b|·8)/254⌉ · 32` bytes to the sink (the terminal partial 254-bit group
is emitted as a full 32-byte word) and returns that byte count; in
particular a 32-byte input yields exactly 64 bytes. -/
theorem write_padded_length_spec :
    (∀ bytes : List ℕ, (write_padded bytes).length = (bytes.length * 8 + 253) / 254 * 32)
      ∧ (write_padded (List.replicate 32 255)).length = 64 := by
  constructor
  · intro bytes
    rw [length_write_padded]
    omega
  · rw [length_write_padded, List.length_replicate]

/-- C8: in the output of `write_padded` the high two bits of every 32nd
byte (indices 31, 63, 95, …) are zero, i.e. each such byte is `< 64`:
every 32-byte output word is at most 254 data bits followed by two zero
bits.  (Out-of-range indices read the default 0, which is also `< 64`.) -/
theorem write_padded_alignment (bytes : List ℕ) (k : ℕ) :
    (write_padded bytes).getD (32 * k + 31) 0 < 64 := by
  rw [write_padded, padBits254]
  exact alignment_padChunks (toBits bytes).length (toBits bytes) k le_rfl

/-- C5 (amended): when `write_unpadded` returns successfully it has written
exactly `len` bytes to the sink (and its returned count, the length of
that list, equals `len`); and it never returns an error value — when the
padded buffer cannot supply `len` bytes the function instead panics on
`assert_eq!(written, len)` (fr32.rs line 103). -/
theorem write_unpadded_success_length (source : List ℕ) (offset len : ℕ) :
    (∀ out, write_unpadded source offset len = WUOutcome.success out → out.length = len)
      ∧ (∀ msg, write_unpadded source offset len ≠ WUOutcome.err msg) := by
  constructor
  · intro out h
    simp only [write_unpadded] at h
    split at h
    · simp at h
    · split at h
      · simp at h
      · split at h
        case isTrue hcond => cases h; exact hcond
        case isFalse => simp at h
  · intro msg h
    simp only [write_unpadded] at h
    split at h
    · simp at h
    · split at h
      · simp at h
      · split at h <;> simp at h

set_option maxRecDepth 100000 in
/-- C5 witness: a 32-byte padded buffer yields exactly the one requested
byte. -/
theorem write_unpadded_success_length_witness :
    (write_unpadded (List.replicate 32 0) 0 1 = WUOutcome.success [0] → [0].length = 1)
      ∧ write_unpadded (List.replicate 32 0) 0 1 ≠ WUOutcome.err "short input" :=
  ⟨(write_unpadded_success_length (List.replicate 32 0) 0 1).1 [0],
   (write_unpadded_success_length (List.replicate 32 0) 0 1).2 "short input"⟩

set_option maxRecDepth 100000 in
/-- C5 counterexample: on an empty padded buffer with `len = 1` the
function panics (modelled `panicked`, from `assert_eq!(written, len)`);
it does not fail with a Short Input error — no error value exists in
fr32.rs at all. -/
theorem write_unpadded_short_is_panic :
    write_unpadded [] 0 1 = WUOutcome.panicked := by
  decide

/-- C1 (amended): the round-trip holds for offsets up to 31 (those with
`fr_count_offset = 0`) and lengths up to 2^21 (where the f32 ceiling in
`fr_count_len` is exact): `write_unpadded (write_padded bytes) off len`
succeeds and writes exactly `bytes[off..off+len]`. -/
theorem write_unpadded_write_padded_roundtrip (bytes : List ℕ) (off len : ℕ)
    (hb : ∀ b ∈ bytes, b < 256) (hoff : off ≤ 31) (hlen : len ≤ 2 ^ 21)
    (hrange : off + len ≤ bytes.length) :
    write_unpadded (write_padded bytes) off len =
      WUOutcome.success ((bytes.drop off).take len) :=
  roundtrip_smalloff bytes off len hb hoff hlen hrange

set_option maxRecDepth 100000 in
/-- C1 witness at `bytes = [10, 20, 30]`, `off = 1`, `len = 2`. -/
theorem write_unpadded_write_padded_roundtrip_witness :
    write_unpadded (write_padded [10, 20, 30]) 1 2 = WUOutcome.success [20, 30] :=
  write_unpadded_write_padded_roundtrip [10, 20, 30] 1 2 (by decide) (by decide)
    (by decide) (by decide)

set_option maxRecDepth 1000000 in
/-- C1 counterexample: with 45 source bytes (zeroes, then `0xff` at index
44), extracting `(off, len) = (44, 1)` from the padded buffer succeeds but
returns `[252]` instead of `bytes[44..45] = [255]`: the skip computation
`offset - start_padded` mixes padded and unpadded byte coordinates, so for
`fr_count_offset = 1` the extracted window is misaligned by 2 bits. -/
theorem write_unpadded_write_padded_mismatch_at_44 :
    44 + 1 ≤ (List.replicate 44 0 ++ [255]).length ∧
    write_unpadded (write_padded (List.replicate 44 0 ++ [255])) 44 1 =
      WUOutcome.success [252] ∧
    (((List.replicate 44 0 ++ [255]).drop 44).take 1 = [255] ∧ (252 : ℕ) ≠ 255) := by
  decide

/-- C7 (amended): for `offset ≤ 2^21` and `len ≤ 2^21` the padded window
`[start_padded, end_padded)` of `write_unpadded` is given by the exact
integer formulas `start_padded = (⌈offset·8/254⌉ - 1)·32` (truncated at 0)
and `end_padded = min(srcLen, start_padded + (⌈len·8/254⌉ + 1)·32)`. -/
theorem window_formula_small (offset len srcLen : ℕ)
    (h1 : offset ≤ 2 ^ 21) (h2 : len ≤ 2 ^ 21) :
    startPadded offset = ((offset * 8 + 253) / 254 - 1) * 32 ∧
    endPadded srcLen offset len =
      min srcLen (startPadded offset + ((len * 8 + 253) / 254 + 1) * 32) := by
  constructor
  · rw [startPadded, frCountOffset_exact offset h1]
    omega
  · rw [endPadded, frCountLen_exact len h2]
    omega

/-- C7 witness at `offset = 44`, `len = 5`, `srcLen = 1000`. -/
theorem window_formula_small_witness :
    startPadded 44 = ((44 * 8 + 253) / 254 - 1) * 32 ∧
    endPadded 1000 44 5 = min 1000 (startPadded 44 + ((5 * 8 + 253) / 254 + 1) * 32) :=
  window_formula_small 44 5 1000 (by decide) (by decide)

set_option maxRecDepth 1000000 in
/-- C7 counterexample: at `offset = 8323104` the f32 ceiling in
`fr_count_offset` rounds `66584832 / 254` down to the integer 262145, so
the code's `start_padded` is `262144·32 = 8388608`, one word short of the
exact-arithmetic value `262145·32 = 8388640`. -/
theorem window_formula_fails_at_8323104 :
    startPadded 8323104 = 8388608 ∧
    ((8323104 * 8 + 253) / 254 - 1) * 32 = 8388640 ∧
    startPadded 8323104 ≠ ((8323104 * 8 + 253) / 254 - 1) * 32 := by
  decide

set_option maxRecDepth 100000 in
/-- C3 counterexample: at `byte = 180`, `pos = 3` the code returns
`(180 >>> 5, 180 >>> 3) = (5, 22)`, not the claimed
`(180 >>> 5, 180 &&& 0b111) = (5, 4)`: the second component is the high
`8 - pos` bits shifted down, not the low `pos` bits. -/
theorem split_byte_claim_fails_at_180_3 :
    split_byte 180 3 = (5, 22) ∧
    (180 >>> (8 - 3), 180 &&& ((1 <<< 3) - 1)) = (5, 4) ∧
    split_byte 180 3 ≠ (180 >>> (8 - 3), 180 &&& ((1 <<< 3) - 1)) := by
  decide

set_option maxRecDepth 1000000 in
/-- C3 (amended): for every byte `b < 256` and `pos ≤ 7`, `split_byte`
returns `(b >> (8-pos), b >> pos)` — first the high `pos` bits of `b`,
then the high `8-pos` bits of `b` — and `(0, b)` for `pos = 0`. -/
theorem split_byte_spec :
    ∀ b : ℕ, b < 256 → ∀ pos : ℕ, pos ≤ 7 →
      split_byte b pos =
        (if pos = 0 then 0 else b >>> (8 - pos), if pos = 0 then b else b >>> pos) := by
  decide

/-- C3 witness at `b = 180`, `pos = 3`. -/
theorem split_byte_spec_witness : split_byte 180 3 = (5, 22) :=
  split_byte_spec 180 (by decide) 3 (by decide)

set_option maxRecDepth 1000000 in
/-- C6: the concrete test vector of `test_write` (fr32.rs lines 350–377):
writing the 66-byte input `[1..31, 0xff, 1..31, 0xff, 9, 9]` and then
`[9, 0xff]` through one `Fr32Writer` followed by `finish()` produces
exactly 69 sink bytes satisfying all the stated byte equations, and the
two `write` calls report counts summing to 68. -/
theorem writer_concrete_vector :
    (writeTwice testWriteInput [9, 255]).1.length = 69 ∧
    (writeTwice testWriteInput [9, 255]).1.take 31 = testWriteInput.take 31 ∧
    (writeTwice testWriteInput [9, 255]).1.getD 31 0 = 0b00111111 ∧
    (writeTwice testWriteInput [9, 255]).1.getD 32 0 = 0b00000111 ∧
    (∀ i : ℕ, i < 63 → 33 ≤ i →
      (writeTwice testWriteInput [9, 255]).1.getD i 0 = (i - 31) <<< 2) ∧
    (writeTwice testWriteInput [9, 255]).1.getD 63 0 = 0x3c ∧
    (writeTwice testWriteInput [9, 255]).1.getD 64 0 = (0x0f ||| (9 <<< 4)) ∧
    (writeTwice testWriteInput [9, 255]).1.getD 65 0 = 0x90 ∧
    (writeTwice testWriteInput [9, 255]).1.getD 66 0 = 0x90 ∧
    (writeTwice testWriteInput [9, 255]).1.getD 67 0 = 0xf0 ∧
    (writeTwice testWriteInput [9, 255]).1.getD 68 0 = 0x0f ∧
    (writeTwice testWriteInput [9, 255]).2 = 68 := by
  decide

/-- C10 counterexample: on a state with `prefix_size = 0` but a stale
nonzero `prefix` (field `pfx` here), `finish()` takes the else branch and
does not reset the prefix: the claim's "resets prefix to 0" fails for this
`Fr32Writer` state. -/
theorem finish_stale_state_not_reset :
    (fr32_finish ⟨5, 0, 254⟩).1.pfx = 5 ∧ (fr32_finish ⟨5, 0, 254⟩).1.pfx ≠ 0 := by
  decide

/-- C10 (amended): `finish()` resets `prefix` and `prefix_size` to 0 and
returns 1 exactly when it flushes (`prefix_size > 0`); when
`prefix_size = 0` it writes nothing, returns 0 and leaves the state (in
particular any stale `prefix`) unchanged; and an immediately repeated
`finish()` always writes nothing and returns 0. -/
theorem finish_spec (st : Fr32Writer) :
    (st.pfx_size > 0 →
      (fr32_finish st).1.pfx = 0 ∧ (fr32_finish st).1.pfx_size = 0 ∧
      (fr32_finish st).2.1 = [st.pfx] ∧ (fr32_finish st).2.2 = 1) ∧
    (st.pfx_size = 0 →
      (fr32_finish st).1 = st ∧ (fr32_finish st).2.1 = [] ∧ (fr32_finish st).2.2 = 0) ∧
    fr32_finish (fr32_finish st).1 = ((fr32_finish st).1, [], 0) := by
  by_cases h : st.pfx_size > 0
  · refine ⟨fun _ => ?_, fun h0 => by omega, ?_⟩
    · rw [fr32_finish, if_pos h]
      exact ⟨rfl, rfl, rfl, rfl⟩
    · have hin : (fr32_finish st).1.pfx_size = 0 := by
        rw [fr32_finish, if_pos h]
      rw [fr32_finish, if_neg (show ¬ (fr32_finish st).1.pfx_size > 0 by omega)]
  · have h0 : st.pfx_size = 0 := by omega
    refine ⟨fun hc => by omega, fun _ => ?_, ?_⟩
    · rw [fr32_finish, if_neg h]
      exact ⟨rfl, rfl, rfl⟩
    · have hin : (fr32_finish st).1.pfx_size = 0 := by
        rw [fr32_finish, if_neg h]
        exact h0
      rw [fr32_finish, if_neg (show ¬ (fr32_finish st).1.pfx_size > 0 by omega)]

/-- C10 witness at the state `⟨pfx 3, pfx_size 4, bits_needed 250⟩`
(which flushes) — the full amended property instantiated there. -/
theorem finish_spec_witness :
    ((⟨3, 4, 250⟩ : Fr32Writer).pfx_size > 0 →
      (fr32_finish ⟨3, 4, 250⟩).1.pfx = 0 ∧ (fr32_finish ⟨3, 4, 250⟩).1.pfx_size = 0 ∧
      (fr32_finish ⟨3, 4, 250⟩).2.1 = [(⟨3, 4, 250⟩ : Fr32Writer).pfx] ∧
      (fr32_finish ⟨3, 4, 250⟩).2.2 = 1) ∧
    ((⟨3, 4, 250⟩ : Fr32Writer).pfx_size = 0 →
      (fr32_finish ⟨3, 4, 250⟩).1 = ⟨3, 4, 250⟩ ∧
      (fr32_finish ⟨3, 4, 250⟩).2.1 = [] ∧ (fr32_finish ⟨3, 4, 250⟩).2.2 = 0) ∧
    fr32_finish (fr32_finish ⟨3, 4, 250⟩).1 = ((fr32_finish ⟨3, 4, 250⟩).1, [], 0) :=
  finish_spec ⟨3, 4, 250⟩

theorem process_bytes_incomplete (st : Fr32Writer) (bytes : List ℕ)
    (h : bytes.length ≤ st.bits_needed / 8) :
    process_bytes st bytes =
      { remainder := (split_byte 0 (st.bits_needed % 8)).2,
        remainder_size := st.pfx_size, consumed := bytes.length,
        out := assemble_bytes st.pfx st.pfx_size
          (bytes.take (min (st.bits_needed / 8) bytes.length))
          (split_byte 0 (st.bits_needed % 8)).1,
        more := false, bn := st.bits_needed - bytes.length } := by
  have hrs : 8 - st.bits_needed % 8 ≠ 0 := by omega
  have hmin : min (st.bits_needed / 8) bytes.length = bytes.length := by omega
  simp only [process_bytes]
  rw [if_pos ⟨hrs, by omega⟩]

theorem process_bytes_complete (st : Fr32Writer) (bytes : List ℕ)
    (h : st.bits_needed / 8 + 1 ≤ bytes.length) :
    process_bytes st bytes =
      { remainder := (split_byte (bytes.getD (st.bits_needed / 8) 0) (st.bits_needed % 8)).2,
        remainder_size := 8 - st.bits_needed % 8,
        consumed := st.bits_needed / 8 + 1,
        out := assemble_bytes st.pfx st.pfx_size (bytes.take (st.bits_needed / 8))
          (split_byte (bytes.getD (st.bits_needed / 8) 0) (st.bits_needed % 8)).1,
        more := true, bn := 254 - (8 - st.bits_needed % 8) } := by
  have hmin : min (st.bits_needed / 8) bytes.length = st.bits_needed / 8 := by omega
  simp only [process_bytes, hmin]
  rw [if_neg (by omega), if_neg (by omega)]

theorem process_bytes_more_iff (st : Fr32Writer) (bytes : List ℕ) :
    (process_bytes st bytes).more = true ↔ st.bits_needed / 8 + 1 ≤ bytes.length := by
  rcases le_or_lt (st.bits_needed / 8 + 1) bytes.length with hc | hc
  · rw [process_bytes_complete st bytes hc]
    simpa using hc
  · rw [process_bytes_incomplete st bytes (by omega)]
    simpa using (by omega : ¬ st.bits_needed / 8 + 1 ≤ bytes.length)

theorem process_bytes_consumed_pos (st : Fr32Writer) (bytes : List ℕ)
    (h : (process_bytes st bytes).more = true) : 1 ≤ (process_bytes st bytes).consumed := by
  rw [process_bytes_complete st bytes ((process_bytes_more_iff st bytes).mp h)]
  show 1 ≤ st.bits_needed / 8 + 1
  omega

theorem process_bytes_consumed_le (st : Fr32Writer) (bytes : List ℕ)
    (h : (process_bytes st bytes).more = true) :
    (process_bytes st bytes).consumed ≤ bytes.length := by
  have hc := (process_bytes_more_iff st bytes).mp h
  rw [process_bytes_complete st bytes hc]
  show st.bits_needed / 8 + 1 ≤ bytes.length
  omega

/-- When a chunk completes inside `a`, appending more input does not change
what `process_bytes` does: it depends on the buffer only through the first
`bits_needed/8 + 1` bytes and the (unreached) length checks. -/
theorem process_bytes_append (st : Fr32Writer) (a b : List ℕ)
    (h : (process_bytes st a).more = true) :
    process_bytes st (a ++ b) = process_bytes st a := by
  have hc := (process_bytes_more_iff st a).mp h
  have hc' : st.bits_needed / 8 + 1 ≤ (a ++ b).length := by
    rw [List.length_append]
    omega
  rw [process_bytes_complete st a hc, process_bytes_complete st (a ++ b) hc',
    List.getD_append _ _ _ _ (by omega),
    List.take_append_of_le_length (by omega)]

theorem writeLoopF_zero (st : Fr32Writer) (buf : List ℕ) :
    writeLoopF 0 st buf = ⟨st, [], 0, 0⟩ := rfl

theorem writeLoopF_nil (fuel : ℕ) (st : Fr32Writer) :
    writeLoopF (fuel + 1) st [] = ⟨st, [], 0, 0⟩ := rfl

theorem writeLoopF_cons (fuel : ℕ) (st : Fr32Writer) (x : ℕ) (rest : List ℕ) :
    writeLoopF (fuel + 1) st (x :: rest) =
      if (process_bytes st (x :: rest)).more then
        ⟨(writeLoopF fuel ⟨(process_bytes st (x :: rest)).remainder,
            (process_bytes st (x :: rest)).remainder_size, (process_bytes st (x :: rest)).bn⟩
            ((x :: rest).drop (process_bytes st (x :: rest)).consumed)).st,
          (process_bytes st (x :: rest)).out ++
            (writeLoopF fuel ⟨(process_bytes st (x :: rest)).remainder,
              (process_bytes st (x :: rest)).remainder_size, (process_bytes st (x :: rest)).bn⟩
              ((x :: rest).drop (process_bytes st (x :: rest)).consumed)).out,
          (process_bytes st (x :: rest)).consumed +
            (writeLoopF fuel ⟨(process_bytes st (x :: rest)).remainder,
              (process_bytes st (x :: rest)).remainder_size, (process_bytes st (x :: rest)).bn⟩
              ((x :: rest).drop (process_bytes st (x :: rest)).consumed)).swk,
          (writeLoopF fuel ⟨(process_bytes st (x :: rest)).remainder,
            (process_bytes st (x :: rest)).remainder_size, (process_bytes st (x :: rest)).bn⟩
            ((x :: rest).drop (process_bytes st (x :: rest)).consumed)).flen⟩
      else
        ⟨⟨if st.pfx_size > 0 then (process_bytes st (x :: rest)).out.getD (x :: rest).length 0
            else st.pfx, st.pfx_size, (process_bytes st (x :: rest)).bn⟩,
          (process_bytes st (x :: rest)).out.take (x :: rest).length,
          (process_bytes st (x :: rest)).consumed, (x :: rest).length⟩ := rfl

theorem cleanSplitF_nil (fuel : ℕ) (st : Fr32Writer) :
    cleanSplitF (fuel + 1) st [] = true := rfl

theorem cleanSplitF_cons (fuel : ℕ) (st : Fr32Writer) (x : ℕ) (rest : List ℕ) :
    cleanSplitF (fuel + 1) st (x :: rest) =
      ((process_bytes st (x :: rest)).more &&
        cleanSplitF fuel ⟨(process_bytes st (x :: rest)).remainder,
          (process_bytes st (x :: rest)).remainder_size, (process_bytes st (x :: rest)).bn⟩
          ((x :: rest).drop (process_bytes st (x :: rest)).consumed)) := rfl

theorem writeLoopF_congr :
    ∀ (n : ℕ) (f g : ℕ) (st : Fr32Writer) (buf : List ℕ),
      buf.length ≤ n → buf.length < f → buf.length < g →
      writeLoopF f st buf = writeLoopF g st buf := by
  intro n
  induction n with
  | zero =>
      intro f g st buf hn hf hg
      have : buf = [] := List.length_eq_zero.mp (by omega)
      subst this
      rcases f with _ | f
      · omega
      rcases g with _ | g
      · omega
      rw [writeLoopF_nil, writeLoopF_nil]
  | succ n ih =>
      intro f g st buf hn hf hg
      rcases buf with _ | ⟨x, rest⟩
      · rcases f with _ | f
        · omega
        rcases g with _ | g
        · omega
        rw [writeLoopF_nil, writeLoopF_nil]
      · rcases f with _ | f
        · simp at hf
        rcases g with _ | g
        · simp at hg
        rw [writeLoopF_cons, writeLoopF_cons]
        by_cases hmore : (process_bytes st (x :: rest)).more = true
        · rw [if_pos hmore, if_pos hmore]
          have hpos := process_bytes_consumed_pos st (x :: rest) hmore
          have hle := process_bytes_consumed_le st (x :: rest) hmore
          simp only [List.length_cons] at hn hf hg hle
          have hrec := ih f g ⟨(process_bytes st (x :: rest)).remainder,
              (process_bytes st (x :: rest)).remainder_size,
              (process_bytes st (x :: rest)).bn⟩
            ((x :: rest).drop (process_bytes st (x :: rest)).consumed)
            (by simp only [List.length_drop, List.length_cons]; omega)
            (by simp only [List.length_drop, List.length_cons]; omega)
            (by simp only [List.length_drop, List.length_cons]; omega)
          rw [hrec]
        · rw [if_neg hmore, if_neg hmore]

theorem cleanSplitF_congr :
    ∀ (n : ℕ) (f g : ℕ) (st : Fr32Writer) (a : List ℕ),
      a.length ≤ n → a.length < f → a.length < g →
      cleanSplitF f st a = cleanSplitF g st a := by
  intro n
  induction n with
  | zero =>
      intro f g st a hn hf hg
      have : a = [] := List.length_eq_zero.mp (by omega)
      subst this
      rcases f with _ | f
      · omega
      rcases g with _ | g
      · omega
      rw [cleanSplitF_nil, cleanSplitF_nil]
  | succ n ih =>
      intro f g st a hn hf hg
      rcases a with _ | ⟨x, rest⟩
      · rcases f with _ | f
        · omega
        rcases g with _ | g
        · omega
        rw [cleanSplitF_nil, cleanSplitF_nil]
      · rcases f with _ | f
        · simp at hf
        rcases g with _ | g
        · simp at hg
        rw [cleanSplitF_cons, cleanSplitF_cons]
        by_cases hmore : (process_bytes st (x :: rest)).more = true
        · have hpos := process_bytes_consumed_pos st (x :: rest) hmore
          have hle := process_bytes_consumed_le st (x :: rest) hmore
          simp only [List.length_cons] at hn hf hg hle
          rw [hmore]
          have hrec := ih f g ⟨(process_bytes st (x :: rest)).remainder,
              (process_bytes st (x :: rest)).remainder_size,
              (process_bytes st (x :: rest)).bn⟩
            ((x :: rest).drop (process_bytes st (x :: rest)).consumed)
            (by simp only [List.length_drop, List.length_cons]; omega)
            (by simp only [List.length_drop, List.length_cons]; omega)
            (by simp only [List.length_drop, List.length_cons]; omega)
          rw [hrec]
        · have hfalse : (process_bytes st (x :: rest)).more = false := by
            simpa using hmore
          rw [hfalse]
          simp

/-- When `a` ends exactly at a chunk boundary of the writer's scan, the
write loop over `a ++ b` is the loop over `a` followed by the loop over
`b` from the intermediate state: same final state, concatenated sink
output. -/
theorem writeLoop_split :
    ∀ (n : ℕ) (a : List ℕ) (st : Fr32Writer) (b : List ℕ),
      a.length ≤ n → cleanSplit st a = true →
      (writeLoopF ((a ++ b).length + 1) st (a ++ b)).st =
        (writeLoopF (b.length + 1) (writeLoopF (a.length + 1) st a).st b).st ∧
      (writeLoopF ((a ++ b).length + 1) st (a ++ b)).out =
        (writeLoopF (a.length + 1) st a).out ++
          (writeLoopF (b.length + 1) (writeLoopF (a.length + 1) st a).st b).out := by
  intro n
  induction n with
  | zero =>
      intro a st b hn _
      have : a = [] := List.length_eq_zero.mp (by omega)
      subst this
      simp [writeLoopF_nil]
  | succ n ih =>
      intro a st b hn hclean
      rcases a with _ | ⟨x, a'⟩
      · simp [writeLoopF_nil]
      · -- unpack the clean-split hypothesis
        rw [cleanSplit, List.length_cons, cleanSplitF_cons] at hclean
        simp only [Bool.and_eq_true] at hclean
        obtain ⟨hmore, hrec0⟩ := hclean
        have hpos := process_bytes_consumed_pos st (x :: a') hmore
        have hle := process_bytes_consumed_le st (x :: a') hmore
        set r := process_bytes st (x :: a') with hr
        set st2 : Fr32Writer := ⟨r.remainder, r.remainder_size, r.bn⟩ with hst2
        set c := r.consumed with hc
        simp only [List.length_cons] at hle
        have hdlen : ((x :: a').drop c).length = a'.length + 1 - c := by
          simp
        have hclean2 : cleanSplit st2 ((x :: a').drop c) = true := by
          rw [cleanSplit, hdlen]
          rw [cleanSplitF_congr (a'.length + 1) (a'.length + 1 - c + 1) (a'.length + 1)
            st2 ((x :: a').drop c) (by omega) (by omega) (by omega)]
          exact hrec0
        -- the appended buffer processes the same first chunk
        have hpb : process_bytes st (x :: (a' ++ b)) = r := by
          rw [← List.cons_append]
          exact process_bytes_append st (x :: a') b hmore
        have hdropab : (x :: (a' ++ b)).drop c = (x :: a').drop c ++ b := by
          rw [← List.cons_append]
          exact List.drop_append_of_le_length (by simpa using hle)
        -- unfold the loop on a ++ b (one complete chunk, then recurse)
        have hL : ((x :: a') ++ b).length + 1 = ((a' ++ b).length + 1) + 1 := by
          simp
        have lhs_unfold :
            writeLoopF (((x :: a') ++ b).length + 1) st ((x :: a') ++ b) =
              ⟨(writeLoopF ((a' ++ b).length + 1) st2 ((x :: a').drop c ++ b)).st,
                r.out ++ (writeLoopF ((a' ++ b).length + 1) st2 ((x :: a').drop c ++ b)).out,
                c + (writeLoopF ((a' ++ b).length + 1) st2 ((x :: a').drop c ++ b)).swk,
                (writeLoopF ((a' ++ b).length + 1) st2 ((x :: a').drop c ++ b)).flen⟩ := by
          rw [hL, List.cons_append, writeLoopF_cons, hpb, if_pos hmore, hdropab]
        -- unfold the loop on a alone
        have rhs_unfold :
            writeLoopF ((x :: a').length + 1) st (x :: a') =
              ⟨(writeLoopF (a'.length + 1) st2 ((x :: a').drop c)).st,
                r.out ++ (writeLoopF (a'.length + 1) st2 ((x :: a').drop c)).out,
                c + (writeLoopF (a'.length + 1) st2 ((x :: a').drop c)).swk,
                (writeLoopF (a'.length + 1) st2 ((x :: a').drop c)).flen⟩ := by
          rw [List.length_cons, writeLoopF_cons, ← hr, if_pos hmore]
        -- switch both recursive calls to canonical fuel
        have hfuel1 : writeLoopF ((a' ++ b).length + 1) st2 ((x :: a').drop c ++ b) =
            writeLoopF (((x :: a').drop c ++ b).length + 1) st2 ((x :: a').drop c ++ b) := by
          apply writeLoopF_congr (((x :: a').drop c ++ b).length)
          · omega
          · simp only [List.length_append, List.length_drop, List.length_cons]
            omega
          · omega
        have hfuel2 : writeLoopF (a'.length + 1) st2 ((x :: a').drop c) =
            writeLoopF (((x :: a').drop c).length + 1) st2 ((x :: a').drop c) := by
          apply writeLoopF_congr (((x :: a').drop c).length)
          · omega
          · simp only [List.length_drop, List.length_cons]
            omega
          · omega
        have hIH := ih ((x :: a').drop c) st2 b
          (by simp only [List.length_drop, List.length_cons] at *; omega) hclean2
        rw [lhs_unfold, rhs_unfold, hfuel1, hfuel2]
        constructor
        · simp only
          rw [hIH.1, hfuel2.symm]
        · simp only
          rw [hIH.2, hfuel2.symm, List.append_assoc]

theorem fr32_write_st (st : Fr32Writer) (buf : List ℕ) :
    (fr32_write st buf).1 = (writeLoopF (buf.length + 1) st buf).st := rfl

theorem fr32_write_out (st : Fr32Writer) (buf : List ℕ) :
    (fr32_write st buf).2.1 = (writeLoopF (buf.length + 1) st buf).out := rfl

/-- C2 (amended): restartability holds for splits `bytes = a ‖ b` in which
`a` ends exactly at a chunk boundary of the writer's scan (`cleanSplit`):
writing `a` then `b` through one fresh `Fr32Writer` followed by `finish()`
puts exactly the same bytes on the sink as writing `a ++ b` in one call
followed by `finish()`. -/
theorem writer_restartable_at_chunk_boundary (a b : List ℕ)
    (h : cleanSplit writerNew a = true) :
    (fr32_write writerNew a).2.1 ++ (fr32_write (fr32_write writerNew a).1 b).2.1 ++
      (fr32_finish (fr32_write (fr32_write writerNew a).1 b).1).2.1 =
    (fr32_write writerNew (a ++ b)).2.1 ++
      (fr32_finish (fr32_write writerNew (a ++ b)).1).2.1 := by
  obtain ⟨hst, hout⟩ := writeLoop_split a.length a writerNew b le_rfl h
  rw [fr32_write_out, fr32_write_out, fr32_write_out, fr32_write_st, fr32_write_st,
    fr32_write_st, hout, hst, List.append_assoc]

set_option maxRecDepth 1000000 in
/-- C2 witness at the clean split `a = [1; 32 copies]`, `b = [7]` (the
first chunk consumes exactly 32 bytes). -/
theorem writer_restartable_witness :
    (fr32_write writerNew (List.replicate 32 1)).2.1 ++
      (fr32_write (fr32_write writerNew (List.replicate 32 1)).1 [7]).2.1 ++
      (fr32_finish (fr32_write (fr32_write writerNew (List.replicate 32 1)).1 [7]).1).2.1 =
    (fr32_write writerNew (List.replicate 32 1 ++ [7])).2.1 ++
      (fr32_finish (fr32_write writerNew (List.replicate 32 1 ++ [7])).1).2.1 :=
  writer_restartable_at_chunk_boundary (List.replicate 32 1) [7] (by decide)

set_option maxRecDepth 1000000 in
/-- C2 counterexample: splitting 32 `0xff` bytes as `[0xff] ‖ [0xff; 31]`
produces a different sink than the single call: the first (1-byte) write
hits the incomplete path, which decrements `bits_needed` by a byte count
instead of a bit count (fr32.rs line 230), so the split run never inserts
the padding bits (32 sink bytes, all `0xff`) while the single call pads
after 254 bits (33 sink bytes ending `0x3f, 0x03`). -/
theorem writer_restart_fails_midchunk :
    (fr32_write writerNew [255]).2.1 ++
      (fr32_write (fr32_write writerNew [255]).1 (List.replicate 31 255)).2.1 ++
      (fr32_finish (fr32_write (fr32_write writerNew [255]).1
        (List.replicate 31 255)).1).2.1 ≠
    (fr32_write writerNew ([255] ++ List.replicate 31 255)).2.1 ++
      (fr32_finish (fr32_write writerNew ([255] ++ List.replicate 31 255)).1).2.1 := by
  decide
